import Mathlib

/-!
# The recursive Fibonacci program of `ide/main.cpp`

The program consists of one function, `long long fibonacci(int n)`, and an
entry point `main` that prints `fibonacci(40)`.

Machine integers are modelled as mathematical integers (`Int`) together with
explicit two's-complement wrapping: `wrap32` for the `int` arithmetic on the
index and `wrap64` for the `long long` arithmetic on the result.  Signed
overflow, which C++ leaves undefined, is modelled as wrap-around.

Two embeddings of `fibonacci` carry the results:

* `fibonacci`, the value semantics, a total function by well-founded recursion
  on the index;
* `fibonacciExec`, the same control flow threaded through a `Machine` that
  counts the invocations, tracks the number of live stack frames and logs the
  operands of every addition performed.

A third, `fibonacciFuel`, runs the same control flow under a bound on the stack
depth; it is used to state that the function returns.
-/

namespace Ide

/-! ## Machine integers -/

/-- Smallest value of the 32-bit `int`. -/
def INT_MIN : Int := -2 ^ 31

/-- Largest value of the 32-bit `int`. -/
def INT_MAX : Int := 2 ^ 31 - 1

/-- Smallest value of the 64-bit `long long`. -/
def LLONG_MIN : Int := -2 ^ 63

/-- Largest value of the 64-bit `long long`. -/
def LLONG_MAX : Int := 2 ^ 63 - 1

/-- Two's-complement reduction of a mathematical integer to the range of `int`. -/
def wrap32 (x : Int) : Int := (x + 2 ^ 31) % 2 ^ 32 - 2 ^ 31

/-- Two's-complement reduction of a mathematical integer to the range of
`long long`. -/
def wrap64 (x : Int) : Int := (x + 2 ^ 63) % 2 ^ 64 - 2 ^ 63

/-- The mathematical integer `x` is representable as a `long long`. -/
def fitsLongLong (x : Int) : Prop := LLONG_MIN ≤ x ∧ x ≤ LLONG_MAX

instance (x : Int) : Decidable (fitsLongLong x) := by
  unfold fitsLongLong; exact inferInstance

/-! ## Value semantics of `fibonacci` -/

/--
Embedding of

```
long long fibonacci(int n) {
    if (n <= 1) {
        return n;
    }
    return fibonacci(n - 1) + fibonacci(n - 2);
}
```

The parameter is an `int`: the index arithmetic `n - 1`, `n - 2` goes through
`wrap32`.  The result is a `long long`: `return n` converts the `int` to
`long long`, which preserves the value, and the addition goes through `wrap64`.
-/
def fibonacci (n : Int) : Int :=
  if n ≤ 1 then
    n
  else
    wrap64 (fibonacci (wrap32 (n - 1)) + fibonacci (wrap32 (n - 2)))
termination_by n.toNat
decreasing_by
  all_goals simp_wf
  all_goals unfold wrap32
  all_goals omega

/-! ## Instrumented semantics of `fibonacci` -/

/-- Observations made while `fibonacci` runs. -/
structure Machine where
  /-- Number of invocations of `fibonacci` entered so far. -/
  calls : Nat
  /-- Number of `fibonacci` frames currently on the call stack. -/
  frames : Nat
  /-- Largest value `frames` has taken so far. -/
  peak : Nat
  /-- Operands of every `long long` addition performed so far, latest first. -/
  adds : List (Int × Int)
deriving DecidableEq, Repr

namespace Machine

/-- The machine before the first call. -/
def start : Machine := { calls := 0, frames := 0, peak := 0, adds := [] }

/-- A call of `fibonacci` pushes a frame. -/
def enter (m : Machine) : Machine :=
  { m with calls := m.calls + 1, frames := m.frames + 1, peak := max m.peak (m.frames + 1) }

/-- A `return` of `fibonacci` pops the frame. -/
def leave (m : Machine) : Machine :=
  { m with frames := m.frames - 1 }

/-- The addition `a + b` of two `long long` values is performed. -/
def logAdd (a b : Int) (m : Machine) : Machine :=
  { m with adds := (a, b) :: m.adds }

end Machine

/--
The function `fibonacci` with its call structure made observable.  The control
flow is that of the source; every invocation enters and leaves the machine, and
the one addition of the recursive case is logged with its operands.

C++ does not fix which operand of `+` is evaluated first; `leftFirst` selects
the order in which the two recursive calls are made.
-/
def fibonacciExec (leftFirst : Bool) (n : Int) (m : Machine) : Int × Machine :=
  let m1 := m.enter
  if n ≤ 1 then
    (n, m1.leave)
  else if leftFirst then
    let a := fibonacciExec leftFirst (wrap32 (n - 1)) m1
    let b := fibonacciExec leftFirst (wrap32 (n - 2)) a.2
    (wrap64 (a.1 + b.1), ((b.2).logAdd a.1 b.1).leave)
  else
    let b := fibonacciExec leftFirst (wrap32 (n - 2)) m1
    let a := fibonacciExec leftFirst (wrap32 (n - 1)) b.2
    (wrap64 (a.1 + b.1), ((a.2).logAdd a.1 b.1).leave)
termination_by n.toNat
decreasing_by
  all_goals simp_wf
  all_goals unfold wrap32
  all_goals omega

/-! ## Step-bounded semantics of `fibonacci` -/

/--
The function `fibonacci` run with a bound on the depth of the call stack: every
call consumes one unit of `fuel`, and `none` is returned when a call is needed
and no fuel is left.  The recursion is on the fuel alone, so nothing about the
index is assumed; the control flow is that of the source.
-/
def fibonacciFuel : Nat → Int → Option Int
  | 0, _ => none
  | fuel + 1, n =>
    if n ≤ 1 then
      some n
    else
      match fibonacciFuel fuel (wrap32 (n - 1)), fibonacciFuel fuel (wrap32 (n - 2)) with
      | some a, some b => some (wrap64 (a + b))
      | _, _ => none

/-! ## The entry point -/

/--
Embedding of

```
int main() {
    int n = 40;
    long long result = fibonacci(n);
    cout << "Fibonacci(" << n << ") = " << result << endl;
    return 0;
}
```

The program reads nothing.  The result is the text written to standard output
and the exit code; `<<` on an integer writes its decimal representation and
`endl` writes a newline.
-/
def main : String × Int :=
  let n : Int := 40
  let result : Int := fibonacci n
  ("Fibonacci(" ++ toString n ++ ") = " ++ toString result ++ "\n", 0)

/-! ## The mathematical Fibonacci sequence -/

/-- The Fibonacci sequence as the specification words it:
`F(0)=0, F(1)=1, F(n)=F(n-1)+F(n-2)`. -/
def fibSpec : Nat → Nat
  | 0 => 0
  | 1 => 1
  | k + 2 => fibSpec (k + 1) + fibSpec k

/-! ## Wrapping is the identity on representable values -/

theorem wrap32_of_fits (x : Int) (hlo : INT_MIN ≤ x) (hhi : x ≤ INT_MAX) : wrap32 x = x := by
  unfold INT_MIN at hlo; unfold INT_MAX at hhi; unfold wrap32; omega

theorem wrap64_of_fits (x : Int) (h : fitsLongLong x) : wrap64 x = x := by
  obtain ⟨hlo, hhi⟩ := h
  unfold LLONG_MIN at hlo; unfold LLONG_MAX at hhi; unfold wrap64; omega

/-! ## Unfolding `fibonacci` -/

theorem fibonacci_base (n : Int) (h : n ≤ 1) : fibonacci n = n := by
  rw [fibonacci, if_pos h]

theorem fibonacci_step (n : Int) (h2 : 2 ≤ n) (hmax : n ≤ INT_MAX) :
    fibonacci n = wrap64 (fibonacci (n - 1) + fibonacci (n - 2)) := by
  have hlo : INT_MIN ≤ n - 2 := by unfold INT_MIN; omega
  rw [fibonacci, if_neg (by omega),
    wrap32_of_fits (n - 1) (by omega) (by omega),
    wrap32_of_fits (n - 2) hlo (by omega)]

/-! ## Facts about the mathematical sequence -/

theorem fibSpec_succ_succ (k : Nat) : fibSpec (k + 2) = fibSpec (k + 1) + fibSpec k := rfl

theorem fibSpec_le_succ (k : Nat) : fibSpec k ≤ fibSpec (k + 1) := by
  cases k with
  | zero => decide
  | succ j => rw [fibSpec_succ_succ]; omega

theorem fibSpec_mono {i j : Nat} (h : i ≤ j) : fibSpec i ≤ fibSpec j := by
  induction h with
  | refl => exact Nat.le_refl _
  | step _ ih => exact Nat.le_trans ih (fibSpec_le_succ _)

theorem fibSpec_succ_pos (k : Nat) : 1 ≤ fibSpec (k + 1) :=
  fibSpec_mono (Nat.succ_le_succ (Nat.zero_le k))

theorem fibSpec_92 : fibSpec 92 = 7540113804746346429 := by decide

theorem fibSpec_93 : fibSpec 93 = 12200160415121876738 := by decide

theorem fibSpec_fits (k : Nat) (h : k ≤ 92) : fitsLongLong (fibSpec k) := by
  have h1 := fibSpec_mono h
  rw [fibSpec_92] at h1
  unfold fitsLongLong LLONG_MIN LLONG_MAX
  omega

/-- The sum formed at index `k + 2` is representable as long as the index is at most 92. -/
theorem fibSpec_sum_fits (k : Nat) (h : k + 2 ≤ 92) :
    fitsLongLong ((fibSpec (k + 1) : Int) + (fibSpec k : Int)) := by
  have h1 := fibSpec_fits (k + 2) h
  rw [fibSpec_succ_succ] at h1
  push_cast at h1
  exact h1

/-! ## `fibonacci` computes the sequence up to index 92 -/

theorem fibonacci_natCast_pair (k : Nat) (h : k + 1 ≤ 92) :
    fibonacci (k : Int) = (fibSpec k : Int) ∧
      fibonacci ((k : Int) + 1) = (fibSpec (k + 1) : Int) := by
  induction k with
  | zero =>
    refine ⟨?_, ?_⟩
    · rw [fibonacci_base _ (by decide)]; rfl
    · rw [fibonacci_base _ (by decide)]; rfl
  | succ j ih =>
    obtain ⟨h0, h1⟩ := ih (by omega)
    refine ⟨by push_cast; exact h1, ?_⟩
    have hmax : ((j + 1 : Nat) : Int) + 1 ≤ INT_MAX := by unfold INT_MAX; omega
    rw [fibonacci_step _ (by omega) hmax]
    have e1 : ((j + 1 : Nat) : Int) + 1 - 1 = (j : Int) + 1 := by omega
    have e2 : ((j + 1 : Nat) : Int) + 1 - 2 = (j : Int) := by omega
    rw [e1, e2, h0, h1, wrap64_of_fits _ (fibSpec_sum_fits j (by omega)), fibSpec_succ_succ]
    push_cast
    rfl

theorem fibonacci_natCast (k : Nat) (h : k ≤ 92) : fibonacci (k : Int) = (fibSpec k : Int) := by
  cases k with
  | zero => rw [fibonacci_base _ (by decide)]; rfl
  | succ j =>
    have := (fibonacci_natCast_pair j (by omega)).2
    push_cast
    exact this

theorem fibonacci_93 : fibonacci 93 = -6246583658587674878 := by
  have hmax : (93 : Int) ≤ INT_MAX := by decide
  have h92 := fibonacci_natCast 92 (by decide)
  have h91 := fibonacci_natCast 91 (by decide)
  have v91 : fibSpec 91 = 4660046610375530309 := by decide
  rw [fibSpec_92] at h92
  rw [v91] at h91
  rw [fibonacci_step 93 (by decide) hmax]
  norm_num at h92 h91 ⊢
  rw [h92, h91]
  decide

/-! ## Unfolding `fibonacciExec` -/

theorem fibonacciExec_base (ord : Bool) (n : Int) (m : Machine) (h : n ≤ 1) :
    fibonacciExec ord n m = (n, m.enter.leave) := by
  rw [fibonacciExec]; simp only [if_pos h]

theorem fibonacciExec_left (n : Int) (m : Machine) (h2 : 2 ≤ n) (hmax : n ≤ INT_MAX) :
    fibonacciExec true n m =
      (wrap64 ((fibonacciExec true (n - 1) m.enter).1 +
          (fibonacciExec true (n - 2) (fibonacciExec true (n - 1) m.enter).2).1),
        (((fibonacciExec true (n - 2) (fibonacciExec true (n - 1) m.enter).2).2).logAdd
          (fibonacciExec true (n - 1) m.enter).1
          (fibonacciExec true (n - 2) (fibonacciExec true (n - 1) m.enter).2).1).leave) := by
  have hlo : INT_MIN ≤ n - 2 := by unfold INT_MIN; omega
  rw [fibonacciExec]
  simp only [if_neg (show ¬ n ≤ 1 by omega), if_true,
    wrap32_of_fits (n - 1) (by omega) (by omega), wrap32_of_fits (n - 2) hlo (by omega)]

theorem fibonacciExec_right (n : Int) (m : Machine) (h2 : 2 ≤ n) (hmax : n ≤ INT_MAX) :
    fibonacciExec false n m =
      (wrap64 ((fibonacciExec false (n - 1) (fibonacciExec false (n - 2) m.enter).2).1 +
          (fibonacciExec false (n - 2) m.enter).1),
        (((fibonacciExec false (n - 1) (fibonacciExec false (n - 2) m.enter).2).2).logAdd
          (fibonacciExec false (n - 1) (fibonacciExec false (n - 2) m.enter).2).1
          (fibonacciExec false (n - 2) m.enter).1).leave) := by
  have hlo : INT_MIN ≤ n - 2 := by unfold INT_MIN; omega
  rw [fibonacciExec]
  simp only [if_neg (show ¬ n ≤ 1 by omega), Bool.false_eq_true, if_false,
    wrap32_of_fits (n - 1) (by omega) (by omega), wrap32_of_fits (n - 2) hlo (by omega)]

/-- The instrumented run returns the value of `fibonacci`, whatever the
operand order and the machine it starts from. -/
theorem fibonacciExec_value (ord : Bool) (n : Int) (m : Machine) :
    (fibonacciExec ord n m).1 = fibonacci n := by
  induction n using fibonacci.induct generalizing m with
  | case1 x h => rw [fibonacciExec_base ord x m h, fibonacci_base x h]
  | case2 x h ih1 ih2 =>
    rw [fibonacciExec, fibonacci]
    simp only [if_neg h]
    cases ord
    · simp only [Bool.false_eq_true, if_false, ih1, ih2]
    · simp only [if_true, ih1, ih2]

/-! ## Counting calls and frames -/

/-- From any machine, a run at index `k` adds `2 * F(k+1) - 1` calls, leaves the
number of live frames unchanged and raises the peak to at least `max k 1` frames
above the current stack. -/
theorem fibonacciExec_counters (ord : Bool) (k : Nat) (hk : (k : Int) ≤ INT_MAX) (m : Machine) :
    (fibonacciExec ord k m).2.calls + 1 = m.calls + 2 * fibSpec (k + 1) ∧
      (fibonacciExec ord k m).2.frames = m.frames ∧
      (fibonacciExec ord k m).2.peak = max m.peak (m.frames + max k 1) := by
  induction k using Nat.strong_induction_on generalizing m with
  | _ k ih =>
    rcases Nat.lt_or_ge k 2 with hlt | hge
    · have hk1 : (k : Int) ≤ 1 := by omega
      rw [fibonacciExec_base ord _ m hk1]
      have hF : fibSpec (k + 1) = 1 := by
        interval_cases k <;> rfl
      have hmx : max k 1 = 1 := by omega
      rw [hF, hmx]
      refine ⟨?_, ?_, ?_⟩
      · show m.calls + 1 + 1 = m.calls + 2 * 1
        omega
      · show m.frames + 1 - 1 = m.frames
        omega
      · rfl
    · obtain ⟨j, rfl⟩ : ∃ j, k = j + 2 := ⟨k - 2, by omega⟩
      have hmax : (j : Int) + 2 ≤ INT_MAX := by
        have := hk; push_cast at this; exact this
      have hj1 : (((j + 1 : Nat) : Int)) ≤ INT_MAX := by
        unfold INT_MAX at hmax ⊢; push_cast; omega
      have hj0 : ((j : Nat) : Int) ≤ INT_MAX := by
        unfold INT_MAX at hmax ⊢; omega
      have e1 : ((j + 2 : Nat) : Int) - 1 = ((j + 1 : Nat) : Int) := by push_cast; omega
      have e2 : ((j + 2 : Nat) : Int) - 2 = ((j : Nat) : Int) := by push_cast; omega
      have h2 : (2 : Int) ≤ ((j + 2 : Nat) : Int) := by push_cast; omega
      have hF : fibSpec (j + 2 + 1) = fibSpec (j + 1 + 1) + fibSpec (j + 1) :=
        fibSpec_succ_succ (j + 1)
      have ec : m.enter.calls = m.calls + 1 := rfl
      have ef : m.enter.frames = m.frames + 1 := rfl
      have ep : m.enter.peak = max m.peak (m.frames + 1) := rfl
      cases ord
      · rw [fibonacciExec_right _ m h2 hk, e1, e2]
        obtain ⟨c0, f0, p0⟩ := ih j (by omega) hj0 m.enter
        obtain ⟨c1, f1, p1⟩ := ih (j + 1) (by omega) hj1 (fibonacciExec false (j : Int) m.enter).2
        simp only [Machine.leave, Machine.logAdd]
        rw [hF, p1, f1, p0, f0]
        rw [ec] at c0
        rw [ef, ep]
        refine ⟨by omega, by omega, ?_⟩
        simp only [max_def]
        split_ifs <;> omega
      · rw [fibonacciExec_left _ m h2 hk, e1, e2]
        obtain ⟨c1, f1, p1⟩ := ih (j + 1) (by omega) hj1 m.enter
        obtain ⟨c0, f0, p0⟩ := ih j (by omega) hj0 (fibonacciExec true ((j + 1 : Nat) : Int) m.enter).2
        simp only [Machine.leave, Machine.logAdd]
        rw [hF, p0, f0, p1, f1]
        rw [ec] at c1
        rw [ef, ep]
        refine ⟨by omega, by omega, ?_⟩
        simp only [max_def]
        split_ifs <;> omega

/-! ## The additions performed -/

/-- Up to index 92, every addition a run logs has a sum representable as a
`long long`. -/
theorem fibonacciExec_adds (ord : Bool) (k : Nat) (hk : k ≤ 92) (m : Machine) :
    ∀ p ∈ (fibonacciExec ord k m).2.adds, p ∈ m.adds ∨ fitsLongLong (p.1 + p.2) := by
  induction k using Nat.strong_induction_on generalizing m with
  | _ k ih =>
    rcases Nat.lt_or_ge k 2 with hlt | hge
    · have hk1 : (k : Int) ≤ 1 := by omega
      rw [fibonacciExec_base ord _ m hk1]
      intro p hp
      exact Or.inl hp
    · obtain ⟨j, rfl⟩ : ∃ j, k = j + 2 := ⟨k - 2, by omega⟩
      have hmax : ((j + 2 : Nat) : Int) ≤ INT_MAX := by unfold INT_MAX; push_cast; omega
      have e1 : ((j + 2 : Nat) : Int) - 1 = ((j + 1 : Nat) : Int) := by push_cast; omega
      have e2 : ((j + 2 : Nat) : Int) - 2 = ((j : Nat) : Int) := by push_cast; omega
      have h2 : (2 : Int) ≤ ((j + 2 : Nat) : Int) := by push_cast; omega
      have v1 : fibonacci ((j + 1 : Nat) : Int) = (fibSpec (j + 1) : Int) :=
        fibonacci_natCast (j + 1) (by omega)
      have v0 : fibonacci ((j : Nat) : Int) = (fibSpec j : Int) :=
        fibonacci_natCast j (by omega)
      have hsum := fibSpec_sum_fits j hk
      intro p hp
      cases ord
      · rw [fibonacciExec_right _ m h2 hmax, e1, e2] at hp
        simp only [Machine.leave, Machine.logAdd, fibonacciExec_value, List.mem_cons] at hp
        rcases hp with rfl | hp
        · right; simp only [v1, v0]; exact hsum
        · rcases ih (j + 1) (by omega) (by omega) _ p hp with hp | hp
          · rcases ih j (by omega) (by omega) _ p hp with hp | hp
            · exact Or.inl hp
            · exact Or.inr hp
          · exact Or.inr hp
      · rw [fibonacciExec_left _ m h2 hmax, e1, e2] at hp
        simp only [Machine.leave, Machine.logAdd, fibonacciExec_value, List.mem_cons] at hp
        rcases hp with rfl | hp
        · right; simp only [v1, v0]; exact hsum
        · rcases ih j (by omega) (by omega) _ p hp with hp | hp
          · rcases ih (j + 1) (by omega) (by omega) _ p hp with hp | hp
            · exact Or.inl hp
            · exact Or.inr hp
          · exact Or.inr hp

/-- From any machine, a run at index `k` logs `F(k+1) - 1` additions. -/
theorem fibonacciExec_adds_length (ord : Bool) (k : Nat) (hk : (k : Int) ≤ INT_MAX)
    (m : Machine) :
    (fibonacciExec ord k m).2.adds.length + 1 = m.adds.length + fibSpec (k + 1) := by
  induction k using Nat.strong_induction_on generalizing m with
  | _ k ih =>
    rcases Nat.lt_or_ge k 2 with hlt | hge
    · have hk1 : (k : Int) ≤ 1 := by omega
      rw [fibonacciExec_base ord _ m hk1]
      have hF : fibSpec (k + 1) = 1 := by
        interval_cases k <;> rfl
      rw [hF]
      rfl
    · obtain ⟨j, rfl⟩ : ∃ j, k = j + 2 := ⟨k - 2, by omega⟩
      have hj1 : (((j + 1 : Nat) : Int)) ≤ INT_MAX := by
        unfold INT_MAX at hk ⊢; push_cast at hk ⊢; omega
      have hj0 : ((j : Nat) : Int) ≤ INT_MAX := by
        unfold INT_MAX at hk ⊢; push_cast at hk; omega
      have e1 : ((j + 2 : Nat) : Int) - 1 = ((j + 1 : Nat) : Int) := by push_cast; omega
      have e2 : ((j + 2 : Nat) : Int) - 2 = ((j : Nat) : Int) := by push_cast; omega
      have h2 : (2 : Int) ≤ ((j + 2 : Nat) : Int) := by push_cast; omega
      have hF : fibSpec (j + 2 + 1) = fibSpec (j + 1 + 1) + fibSpec (j + 1) :=
        fibSpec_succ_succ (j + 1)
      have ea : m.enter.adds = m.adds := rfl
      cases ord
      · rw [fibonacciExec_right _ m h2 hk, e1, e2]
        have a0 := ih j (by omega) hj0 m.enter
        have a1 := ih (j + 1) (by omega) hj1 (fibonacciExec false (j : Int) m.enter).2
        simp only [Machine.leave, Machine.logAdd, List.length_cons]
        rw [ea] at a0
        rw [hF]
        omega
      · rw [fibonacciExec_left _ m h2 hk, e1, e2]
        have a1 := ih (j + 1) (by omega) hj1 m.enter
        have a0 := ih j (by omega) hj0 (fibonacciExec true ((j + 1 : Nat) : Int) m.enter).2
        simp only [Machine.leave, Machine.logAdd, List.length_cons]
        rw [ea] at a1
        rw [hF]
        omega

/-! ## Runs from the initial machine -/

theorem fibonacciExec_start_calls (ord : Bool) (k : Nat) (hk : (k : Int) ≤ INT_MAX) :
    (fibonacciExec ord k Machine.start).2.calls + 1 = 2 * fibSpec (k + 1) := by
  have h := (fibonacciExec_counters ord k hk Machine.start).1
  have e : Machine.start.calls = 0 := rfl
  rw [e] at h
  omega

theorem fibonacciExec_start_peak (ord : Bool) (k : Nat) (hk : (k : Int) ≤ INT_MAX) :
    (fibonacciExec ord k Machine.start).2.peak = max k 1 := by
  have h := (fibonacciExec_counters ord k hk Machine.start).2.2
  have e1 : Machine.start.peak = 0 := rfl
  have e2 : Machine.start.frames = 0 := rfl
  rw [e1, e2] at h
  rw [h]
  omega

theorem fibonacciExec_base_calls (ord : Bool) (n : Int) (h : n ≤ 1) :
    (fibonacciExec ord n Machine.start).2.calls = 1 := by
  rw [fibonacciExec_base ord n Machine.start h]
  rfl

theorem fibonacci_40 : fibonacci 40 = 102334155 := by
  have h := fibonacci_natCast 40 (by decide)
  have v : fibSpec 40 = 102334155 := by decide
  rw [v] at h
  exact h

/-! ## The claims -/

/-- C1, counterexample: at the index 93, which is a non-negative `int`,
`fibonacci` does not return the Fibonacci number `F(93)`. -/
theorem fibonacci_93_ne_fibSpec :
    (0 : Int) ≤ 93 ∧ (93 : Int) ≤ INT_MAX ∧ fibonacci 93 ≠ (fibSpec (Int.toNat 93) : Int) := by
  refine ⟨by decide, by decide, ?_⟩
  have e : Int.toNat 93 = 93 := rfl
  rw [e, fibonacci_93, fibSpec_93]
  decide

/-- C1, amended: for every integer `n` with `0 <= n <= 92`, `fibonacci n` is
exactly the `n`-th number of the sequence `F(0)=0, F(1)=1, F(k+2)=F(k+1)+F(k)`. -/
theorem fibonacci_eq_fibSpec (n : Int) (h0 : 0 ≤ n) (h92 : n ≤ 92) :
    fibonacci n = (fibSpec n.toNat : Int) := by
  obtain ⟨k, rfl⟩ := Int.eq_ofNat_of_zero_le h0
  rw [Int.toNat_ofNat]
  exact fibonacci_natCast k (by omega)

theorem fibonacci_eq_fibSpec_witness :
    (0 : Int) ≤ 13 ∧ (13 : Int) ≤ 92 ∧ fibonacci 13 = (fibSpec (Int.toNat 13) : Int) :=
  ⟨by decide, by decide, fibonacci_eq_fibSpec 13 (by decide) (by decide)⟩

/-- C2: for every `int` index `n >= 2`, `fibonacci n` is the `long long` sum of
`fibonacci (n - 1)` and `fibonacci (n - 2)`. -/
theorem fibonacci_recurrence (n : Int) (h2 : 2 ≤ n) (hmax : n ≤ INT_MAX) :
    fibonacci n = wrap64 (fibonacci (n - 1) + fibonacci (n - 2)) :=
  fibonacci_step n h2 hmax

theorem fibonacci_recurrence_witness :
    (2 : Int) ≤ 93 ∧ (93 : Int) ≤ INT_MAX ∧
      fibonacci 93 = wrap64 (fibonacci (93 - 1) + fibonacci (93 - 2)) :=
  ⟨by decide, by decide, fibonacci_recurrence 93 (by decide) (by decide)⟩

/-- C3: for `n` in `{0, 1}`, `fibonacci n = n`, and the run makes one invocation
only, the outermost: there is no recursive call. -/
theorem fibonacci_zero_one (n : Int) (h : n = 0 ∨ n = 1) :
    fibonacci n = n ∧ ∀ ord : Bool, (fibonacciExec ord n Machine.start).2.calls = 1 := by
  have h1 : n ≤ 1 := by omega
  exact ⟨fibonacci_base n h1, fun ord => fibonacciExec_base_calls ord n h1⟩

theorem fibonacci_zero_one_witness :
    (fibonacci 0 = 0 ∧ ∀ ord : Bool, (fibonacciExec ord 0 Machine.start).2.calls = 1) ∧
      (fibonacci 1 = 1 ∧ ∀ ord : Bool, (fibonacciExec ord 1 Machine.start).2.calls = 1) :=
  ⟨fibonacci_zero_one 0 (Or.inl rfl), fibonacci_zero_one 1 (Or.inr rfl)⟩

/-- C4: the documented values `fibonacci(0)=0`, `fibonacci(1)=1`,
`fibonacci(2)=1`, `fibonacci(5)=5`, `fibonacci(10)=55`,
`fibonacci(40)=102334155`. -/
theorem fibonacci_documented_values :
    fibonacci 0 = 0 ∧ fibonacci 1 = 1 ∧ fibonacci 2 = 1 ∧ fibonacci 5 = 5 ∧
      fibonacci 10 = 55 ∧ fibonacci 40 = 102334155 := by
  refine ⟨?_, ?_, ?_, ?_, ?_, fibonacci_40⟩
  · exact fibonacci_base 0 (by decide)
  · exact fibonacci_base 1 (by decide)
  · have h := fibonacci_natCast 2 (by decide)
    have v : fibSpec 2 = 1 := by decide
    rw [v] at h
    exact h
  · have h := fibonacci_natCast 5 (by decide)
    have v : fibSpec 5 = 5 := by decide
    rw [v] at h
    exact h
  · have h := fibonacci_natCast 10 (by decide)
    have v : fibSpec 10 = 55 := by decide
    rw [v] at h
    exact h

/-- C5: `main` writes exactly the line `Fibonacci(40) = 102334155` and a newline
to standard output and returns 0; the text is `Fibonacci(`, the decimal of 40,
`) = `, the decimal of `fibonacci 40`. -/
theorem main_output :
    main = ("Fibonacci(40) = 102334155\n", 0) ∧
      main.1 = "Fibonacci(" ++ toString (40 : Int) ++ ") = " ++
        toString (fibonacci 40) ++ "\n" := by
  refine ⟨?_, rfl⟩
  unfold main
  simp only [fibonacci_40]
  decide

/-- C6: in the run of `fibonacci(40)`, whatever the operand order, every
addition performed (there are 165580140 of them) has a true sum representable
as a `long long`, so wrapping leaves each sum unchanged, and the result is the
exact value `F(40)`. -/
theorem fibonacci_40_no_overflow (ord : Bool) :
    (∀ p ∈ (fibonacciExec ord 40 Machine.start).2.adds,
        fitsLongLong (p.1 + p.2) ∧ wrap64 (p.1 + p.2) = p.1 + p.2) ∧
      (fibonacciExec ord 40 Machine.start).2.adds.length = 165580140 ∧
      (fibonacciExec ord 40 Machine.start).1 = (fibSpec 40 : Int) ∧
      fibonacci 40 = (fibSpec 40 : Int) := by
  have hv : fibonacci 40 = (fibSpec 40 : Int) := fibonacci_natCast 40 (by decide)
  refine ⟨?_, ?_, ?_, hv⟩
  · intro p hp
    have h := fibonacciExec_adds ord 40 (by decide) Machine.start p hp
    rcases h with h | h
    · exact absurd h (List.not_mem_nil p)
    · exact ⟨h, wrap64_of_fits _ h⟩
  · have h : (fibonacciExec ord 40 Machine.start).2.adds.length + 1 =
        Machine.start.adds.length + fibSpec (40 + 1) :=
      fibonacciExec_adds_length ord 40 (by decide) Machine.start
    have v : fibSpec (40 + 1) = 165580141 := by decide
    have e : Machine.start.adds.length = 0 := rfl
    rw [v, e] at h
    omega
  · rw [fibonacciExec_value]
    exact hv

/-- C7: for every negative `n`, `fibonacci n` is `n` itself, a negative number,
and the run makes the outermost invocation only. -/
theorem fibonacci_negative (n : Int) (hneg : n < 0) :
    fibonacci n = n ∧ fibonacci n < 0 ∧
      ∀ ord : Bool, (fibonacciExec ord n Machine.start).2.calls = 1 := by
  have h1 : n ≤ 1 := by omega
  have hv := fibonacci_base n h1
  refine ⟨hv, ?_, fun ord => fibonacciExec_base_calls ord n h1⟩
  rw [hv]
  exact hneg

theorem fibonacci_negative_witness :
    INT_MIN < 0 ∧ fibonacci INT_MIN = INT_MIN ∧ fibonacci INT_MIN < 0 ∧
      ∀ ord : Bool, (fibonacciExec ord INT_MIN Machine.start).2.calls = 1 :=
  ⟨by decide, fibonacci_negative INT_MIN (by decide)⟩

/-- C8: overflow happens for a large enough index: 93 is a non-negative `int`,
the true `F(93)` exceeds `2^63 - 1`, and `fibonacci 93` computed with wrap-around
differs from `F(93)`. -/
theorem fibonacci_overflow_exists :
    ((0 : Int) ≤ 93 ∧ (93 : Int) ≤ INT_MAX ∧ LLONG_MAX < (fibSpec 93 : Int) ∧
        fibonacci 93 ≠ (fibSpec 93 : Int)) ∧
      ∃ n : Int, 0 ≤ n ∧ n ≤ INT_MAX ∧ LLONG_MAX < (fibSpec n.toNat : Int) ∧
        fibonacci n ≠ (fibSpec n.toNat : Int) := by
  have h : (0 : Int) ≤ 93 ∧ (93 : Int) ≤ INT_MAX ∧ LLONG_MAX < (fibSpec 93 : Int) ∧
      fibonacci 93 ≠ (fibSpec 93 : Int) := by
    rw [fibonacci_93, fibSpec_93]
    decide
  exact ⟨h, 93, h⟩

/-- C9: for every `int` index `n >= 1`, the largest number of `fibonacci` frames
live at once during the run of `fibonacci n` is exactly `n`; the run for the
call of `main` reaches 40 frames. -/
theorem fibonacci_stack_depth :
    (∀ (ord : Bool) (n : Int), 1 ≤ n → n ≤ INT_MAX →
        ((fibonacciExec ord n Machine.start).2.peak : Int) = n) ∧
      ∀ ord : Bool, (fibonacciExec ord 40 Machine.start).2.peak = 40 := by
  refine ⟨?_, ?_⟩
  · intro ord n h1 hmax
    obtain ⟨k, rfl⟩ := Int.eq_ofNat_of_zero_le (show (0 : Int) ≤ n by omega)
    rw [fibonacciExec_start_peak ord k hmax]
    omega
  · intro ord
    exact fibonacciExec_start_peak ord 40 (by decide)

theorem fibonacci_stack_depth_witness :
    ((fibonacciExec true 7 Machine.start).2.peak : Int) = 7 :=
  fibonacci_stack_depth.1 true 7 (by decide) (by decide)

/-- C10: for every `int` index `n >= 0`, the run of `fibonacci n` makes exactly
`2 * F(n+1) - 1` invocations of `fibonacci`, the outermost included; for
`n = 40` that is 331160281. -/
theorem fibonacci_call_count :
    (∀ (ord : Bool) (n : Int), 0 ≤ n → n ≤ INT_MAX →
        ((fibonacciExec ord n Machine.start).2.calls : Int) =
          2 * (fibSpec (n.toNat + 1) : Int) - 1) ∧
      ∀ ord : Bool, (fibonacciExec ord 40 Machine.start).2.calls = 331160281 := by
  refine ⟨?_, ?_⟩
  · intro ord n h0 hmax
    obtain ⟨k, rfl⟩ := Int.eq_ofNat_of_zero_le h0
    rw [Int.toNat_ofNat]
    have h := fibonacciExec_start_calls ord k hmax
    omega
  · intro ord
    have h : (fibonacciExec ord 40 Machine.start).2.calls + 1 = 2 * fibSpec (40 + 1) :=
      fibonacciExec_start_calls ord 40 (by decide)
    have v : fibSpec (40 + 1) = 165580141 := by decide
    rw [v] at h
    omega

theorem fibonacci_call_count_witness :
    ((fibonacciExec false 3 Machine.start).2.calls : Int) =
      2 * (fibSpec (Int.toNat 3 + 1) : Int) - 1 :=
  fibonacci_call_count.1 false 3 (by decide) (by decide)


/-! ## The step-bounded run returns -/

theorem fibonacciFuel_base (fuel : Nat) (n : Int) (h : n ≤ 1) :
    fibonacciFuel (fuel + 1) n = some n := by
  rw [fibonacciFuel, if_pos h]

/-- With more fuel than the index, the step-bounded run returns the value of
`fibonacci`. -/
theorem fibonacciFuel_natCast (k : Nat) (hk : (k : Int) ≤ INT_MAX) (fuel : Nat)
    (hf : k < fuel) : fibonacciFuel fuel (k : Int) = some (fibonacci (k : Int)) := by
  induction k using Nat.strong_induction_on generalizing fuel with
  | _ k ih =>
    obtain ⟨f, rfl⟩ : ∃ f, fuel = f + 1 := ⟨fuel - 1, by omega⟩
    rcases Nat.lt_or_ge k 2 with hlt | hge
    · have hk1 : (k : Int) ≤ 1 := by omega
      rw [fibonacciFuel_base f _ hk1, fibonacci_base _ hk1]
    · obtain ⟨j, rfl⟩ : ∃ j, k = j + 2 := ⟨k - 2, by omega⟩
      have hj1 : (((j + 1 : Nat) : Int)) ≤ INT_MAX := by
        unfold INT_MAX at hk ⊢; push_cast at hk ⊢; omega
      have hj0 : ((j : Nat) : Int) ≤ INT_MAX := by
        unfold INT_MAX at hk ⊢; push_cast at hk; omega
      have e1 : ((j + 2 : Nat) : Int) - 1 = ((j + 1 : Nat) : Int) := by push_cast; omega
      have e2 : ((j + 2 : Nat) : Int) - 2 = ((j : Nat) : Int) := by push_cast; omega
      have h2 : (2 : Int) ≤ ((j + 2 : Nat) : Int) := by push_cast; omega
      have hlo1 : INT_MIN ≤ ((j + 2 : Nat) : Int) - 1 := by unfold INT_MIN; omega
      have hlo2 : INT_MIN ≤ ((j + 2 : Nat) : Int) - 2 := by unfold INT_MIN; omega
      have r1 := ih (j + 1) (by omega) hj1 f (by omega)
      have r0 := ih j (by omega) hj0 f (by omega)
      rw [fibonacciFuel, if_neg (by omega),
        wrap32_of_fits _ hlo1 (by omega), wrap32_of_fits _ hlo2 (by omega),
        fibonacci_step _ h2 hk, e1, e2, r1, r0]

/-! ## Growth of the mathematical sequence -/

theorem fibSpec_lt_succ (k : Nat) (h : 2 ≤ k) : fibSpec k < fibSpec (k + 1) := by
  obtain ⟨j, rfl⟩ : ∃ j, k = j + 2 := ⟨k - 2, by omega⟩
  have hp := fibSpec_succ_pos j
  show fibSpec (j + 1 + 1) < fibSpec (j + 1 + 1) + fibSpec (j + 1)
  omega

theorem fibSpec_strict_mono {i j : Nat} (h2 : 2 ≤ i) (h : i < j) : fibSpec i < fibSpec j :=
  Nat.lt_of_lt_of_le (fibSpec_lt_succ i h2) (fibSpec_mono h)

/-! ## Beyond index 92 -/

theorem wrap64_le (x : Int) : wrap64 x ≤ LLONG_MAX := by
  unfold wrap64 LLONG_MAX; omega

theorem fibonacci_le_LLONG_MAX (n : Int) (hmax : n ≤ INT_MAX) : fibonacci n ≤ LLONG_MAX := by
  rcases Int.lt_or_le n 2 with h | h
  · rw [fibonacci_base n (by omega)]
    unfold LLONG_MAX; omega
  · rw [fibonacci_step n h hmax]
    exact wrap64_le _

theorem fibSpec_gt_LLONG_MAX (k : Nat) (h : 93 ≤ k) : LLONG_MAX < (fibSpec k : Int) := by
  have h1 := fibSpec_mono h
  rw [fibSpec_93] at h1
  unfold LLONG_MAX
  omega

theorem fibonacci_natCast_ne (k : Nat) (h : 93 ≤ k) (hmax : (k : Int) ≤ INT_MAX) :
    fibonacci (k : Int) ≠ (fibSpec k : Int) := by
  have h1 := fibonacci_le_LLONG_MAX (k : Int) hmax
  have h2 := fibSpec_gt_LLONG_MAX k h
  omega

/-- A run never removes an entry from the log of additions. -/
theorem fibonacciExec_adds_mono (ord : Bool) (n : Int) (m : Machine) :
    ∀ p ∈ m.adds, p ∈ (fibonacciExec ord n m).2.adds := by
  induction n using fibonacci.induct generalizing m with
  | case1 x h =>
    intro p hp
    rw [fibonacciExec_base ord x m h]
    exact hp
  | case2 x h ih1 ih2 =>
    intro p hp
    have hp0 : p ∈ m.enter.adds := hp
    rw [fibonacciExec]
    simp only [if_neg h]
    cases ord
    · simp only [Bool.false_eq_true, if_false, Machine.leave, Machine.logAdd]
      exact List.mem_cons_of_mem _ (ih1 _ p (ih2 _ p hp0))
    · simp only [if_true, Machine.leave, Machine.logAdd]
      exact List.mem_cons_of_mem _ (ih2 _ p (ih1 _ p hp0))

theorem fibSpec_93_sum_overflows :
    ¬ fitsLongLong ((fibSpec 92 : Int) + (fibSpec 91 : Int)) := by
  have v91 : fibSpec 91 = 4660046610375530309 := by decide
  rw [fibSpec_92, v91]
  decide

/-- From index 93 on, every run logs an addition whose true sum is not
representable as a `long long`. -/
theorem fibonacciExec_overflow (ord : Bool) (k : Nat) (h93 : 93 ≤ k) :
    (k : Int) ≤ INT_MAX → ∀ m : Machine,
      ∃ p ∈ (fibonacciExec ord k m).2.adds, ¬ fitsLongLong (p.1 + p.2) := by
  induction k, h93 using Nat.le_induction with
  | base =>
    intro hk m
    have v92 : fibonacci ((92 : Nat) : Int) = (fibSpec 92 : Int) := fibonacci_natCast 92 (by decide)
    have v91 : fibonacci ((91 : Nat) : Int) = (fibSpec 91 : Int) := fibonacci_natCast 91 (by decide)
    have e1 : ((93 : Nat) : Int) - 1 = ((92 : Nat) : Int) := by decide
    have e2 : ((93 : Nat) : Int) - 2 = ((91 : Nat) : Int) := by decide
    have h2 : (2 : Int) ≤ ((93 : Nat) : Int) := by decide
    refine ⟨(fibonacci ((92 : Nat) : Int), fibonacci ((91 : Nat) : Int)), ?_, ?_⟩
    · cases ord
      · rw [fibonacciExec_right _ m h2 hk, e1, e2]
        simp only [Machine.leave, Machine.logAdd, fibonacciExec_value]
        exact List.mem_cons_self _ _
      · rw [fibonacciExec_left _ m h2 hk, e1, e2]
        simp only [Machine.leave, Machine.logAdd, fibonacciExec_value]
        exact List.mem_cons_self _ _
    · show ¬ fitsLongLong (fibonacci ((92 : Nat) : Int) + fibonacci ((91 : Nat) : Int))
      rw [v92, v91]
      exact fibSpec_93_sum_overflows
  | succ j hj ih =>
    intro hk m
    have hjmax : ((j : Nat) : Int) ≤ INT_MAX := by
      unfold INT_MAX at hk ⊢; push_cast at hk; omega
    have e1 : ((j + 1 : Nat) : Int) - 1 = ((j : Nat) : Int) := by push_cast; omega
    have h2 : (2 : Int) ≤ ((j + 1 : Nat) : Int) := by push_cast; omega
    cases ord
    · obtain ⟨p, hp, hbad⟩ := ih hjmax (fibonacciExec false (((j + 1 : Nat) : Int) - 2) m.enter).2
      refine ⟨p, ?_, hbad⟩
      rw [fibonacciExec_right _ m h2 hk, e1]
      simp only [Machine.leave, Machine.logAdd]
      exact List.mem_cons_of_mem _ hp
    · obtain ⟨p, hp, hbad⟩ := ih hjmax m.enter
      refine ⟨p, ?_, hbad⟩
      rw [fibonacciExec_left _ m h2 hk, e1]
      simp only [Machine.leave, Machine.logAdd]
      exact List.mem_cons_of_mem _ (fibonacciExec_adds_mono true _ _ p hp)

/-! ## The claims on termination, range and monotonicity -/

/-- C11: `fibonacci` returns for every value of its `int` parameter, negative
values and `INT_MIN` included: the run bounded to more stack frames than
`max n 0` returns the value of `fibonacci`; recursive calls are made exactly
when `n >= 2`; and then `n - 1` and `n - 2` do not overflow the 32-bit `int`,
are non-negative and strictly below `n`, so the measure of the well-founded
recursion decreases. -/
theorem fibonacci_terminates (n : Int) (hlo : INT_MIN ≤ n) (hhi : n ≤ INT_MAX) :
    (∀ fuel : Nat, n.toNat < fuel → fibonacciFuel fuel n = some (fibonacci n)) ∧
      (∀ ord : Bool, (fibonacciExec ord n Machine.start).2.calls = 1 ↔ n ≤ 1) ∧
      (2 ≤ n →
        (INT_MIN ≤ n - 1 ∧ n - 1 ≤ INT_MAX ∧ wrap32 (n - 1) = n - 1) ∧
        (INT_MIN ≤ n - 2 ∧ n - 2 ≤ INT_MAX ∧ wrap32 (n - 2) = n - 2) ∧
        (0 ≤ n - 2 ∧ n - 2 < n - 1 ∧ n - 1 < n) ∧
        ((wrap32 (n - 1)).toNat < n.toNat ∧ (wrap32 (n - 2)).toNat < n.toNat)) := by
  refine ⟨?_, ?_, ?_⟩
  · intro fuel hf
    rcases Int.lt_or_le n 0 with hneg | hnn
    · obtain ⟨f, rfl⟩ : ∃ f, fuel = f + 1 := ⟨fuel - 1, by omega⟩
      rw [fibonacciFuel_base f n (by omega), fibonacci_base n (by omega)]
    · obtain ⟨k, rfl⟩ := Int.eq_ofNat_of_zero_le hnn
      rw [Int.toNat_ofNat] at hf
      exact fibonacciFuel_natCast k hhi fuel hf
  · intro ord
    refine ⟨?_, fibonacciExec_base_calls ord n⟩
    intro hc
    by_contra hn
    obtain ⟨k, rfl⟩ := Int.eq_ofNat_of_zero_le (show (0 : Int) ≤ n by omega)
    have h := fibonacciExec_start_calls ord k hhi
    have h3 : fibSpec 3 ≤ fibSpec (k + 1) := fibSpec_mono (by omega)
    have v3 : fibSpec 3 = 2 := by decide
    rw [hc] at h
    rw [v3] at h3
    omega
  · intro h2
    have hlo1 : INT_MIN ≤ n - 1 := by unfold INT_MIN; omega
    have hlo2 : INT_MIN ≤ n - 2 := by unfold INT_MIN; omega
    have hhi1 : n - 1 ≤ INT_MAX := by omega
    have hhi2 : n - 2 ≤ INT_MAX := by omega
    have w1 := wrap32_of_fits (n - 1) hlo1 hhi1
    have w2 := wrap32_of_fits (n - 2) hlo2 hhi2
    refine ⟨⟨hlo1, hhi1, w1⟩, ⟨hlo2, hhi2, w2⟩, ⟨by omega, by omega, by omega⟩, ?_, ?_⟩
    · rw [w1]; omega
    · rw [w2]; omega

/-- C11, witness: at `INT_MIN` one frame suffices, and at 40 forty-one do. -/
theorem fibonacci_terminates_witness :
    (INT_MIN ≤ INT_MIN ∧ INT_MIN ≤ INT_MAX ∧
        fibonacciFuel 1 INT_MIN = some (fibonacci INT_MIN)) ∧
      ((INT_MIN ≤ 40 ∧ (40 : Int) ≤ INT_MAX) ∧
        fibonacciFuel 41 40 = some (fibonacci 40)) :=
  ⟨⟨by decide, by decide, (fibonacci_terminates INT_MIN (by decide) (by decide)).1 1 (by decide)⟩,
    ⟨by decide, by decide⟩, (fibonacci_terminates 40 (by decide) (by decide)).1 41 (by decide)⟩

/-- C12: the exact range is `0 <= n <= 92`.  For every such `n`, whatever the
operand order, no addition of the run has a sum outside the `long long` range
and the result is exactly `F(n)`; `F(92) <= 2^63 - 1 < F(93)`; and for every
`int` index from 93 on, some addition of the run overflows and the result is
not `F(n)`. -/
theorem fibonacci_exact_range :
    (∀ (ord : Bool) (n : Int), 0 ≤ n → n ≤ 92 →
        (∀ p ∈ (fibonacciExec ord n Machine.start).2.adds, fitsLongLong (p.1 + p.2)) ∧
        (fibonacciExec ord n Machine.start).1 = (fibSpec n.toNat : Int) ∧
        fibonacci n = (fibSpec n.toNat : Int)) ∧
      ((fibSpec 92 : Int) ≤ LLONG_MAX ∧ LLONG_MAX < (fibSpec 93 : Int)) ∧
      (∀ (ord : Bool) (n : Int), 93 ≤ n → n ≤ INT_MAX →
        (∃ p ∈ (fibonacciExec ord n Machine.start).2.adds, ¬ fitsLongLong (p.1 + p.2)) ∧
        fibonacci n ≠ (fibSpec n.toNat : Int)) := by
  refine ⟨?_, ⟨(fibSpec_fits 92 (by decide)).2, fibSpec_gt_LLONG_MAX 93 (by decide)⟩, ?_⟩
  · intro ord n h0 h92
    obtain ⟨k, rfl⟩ := Int.eq_ofNat_of_zero_le h0
    rw [Int.toNat_ofNat]
    have hk : k ≤ 92 := by omega
    have hv := fibonacci_natCast k hk
    refine ⟨?_, ?_, hv⟩
    · intro p hp
      rcases fibonacciExec_adds ord k hk Machine.start p hp with h | h
      · exact absurd h (List.not_mem_nil p)
      · exact h
    · rw [fibonacciExec_value]
      exact hv
  · intro ord n h93 hmax
    obtain ⟨k, rfl⟩ := Int.eq_ofNat_of_zero_le (show (0 : Int) ≤ n by omega)
    rw [Int.toNat_ofNat]
    have hk : 93 ≤ k := by omega
    exact ⟨fibonacciExec_overflow ord k hk hmax Machine.start, fibonacci_natCast_ne k hk hmax⟩

/-- C12, witness: the two ends of the boundary, 92 and 93. -/
theorem fibonacci_exact_range_witness :
    fibonacci 92 = (fibSpec (Int.toNat 92) : Int) ∧
      fibonacci 93 ≠ (fibSpec (Int.toNat 93) : Int) :=
  ⟨(fibonacci_exact_range.1 true 92 (by decide) (by decide)).2.2,
    (fibonacci_exact_range.2.2 true 93 (by decide) (by decide)).2⟩

/-- C13: for all `m`, `n` with `0 <= m <= n <= 92`,
`0 <= fibonacci m <= fibonacci n`, and `fibonacci m < fibonacci n` whenever
`2 <= m < n`. -/
theorem fibonacci_monotone (m n : Int) (h0 : 0 ≤ m) (hmn : m ≤ n) (h92 : n ≤ 92) :
    0 ≤ fibonacci m ∧ fibonacci m ≤ fibonacci n ∧
      (2 ≤ m → m < n → fibonacci m < fibonacci n) := by
  obtain ⟨i, rfl⟩ := Int.eq_ofNat_of_zero_le h0
  obtain ⟨j, rfl⟩ := Int.eq_ofNat_of_zero_le (show (0 : Int) ≤ n by omega)
  have hij : i ≤ j := by omega
  rw [fibonacci_natCast i (by omega), fibonacci_natCast j (by omega)]
  refine ⟨by omega, ?_, ?_⟩
  · have := fibSpec_mono hij
    omega
  · intro h2 hlt
    have := fibSpec_strict_mono (show 2 ≤ i by omega) (show i < j by omega)
    omega

/-- C13, witness: strictness at the first pair it applies to, `m = 2`, `n = 3`. -/
theorem fibonacci_monotone_witness :
    ((0 : Int) ≤ 2 ∧ (2 : Int) ≤ 3 ∧ (3 : Int) ≤ 92) ∧
      (0 ≤ fibonacci 2 ∧ fibonacci 2 ≤ fibonacci 3 ∧
        ((2 : Int) ≤ 2 → (2 : Int) < 3 → fibonacci 2 < fibonacci 3)) :=
  ⟨⟨by decide, by decide, by decide⟩, fibonacci_monotone 2 3 (by decide) (by decide) (by decide)⟩

end Ide
